/-
Verification of the candidate construction, multi-strategy similarity scoring,
and canonical-identity deduplication engine of the WNL athlete video index
(src/search/fuzzy.py), via a shallow embedding in Lean 4.

Strings are modelled as lists of characters; Python floats are modelled as
exact rationals; Python dicts (insertion-ordered) are modelled as association
lists with in-place update; the stable list sort is modelled by insertion sort
(any two stable sorts under the same comparison agree extensionally).

The similarity primitives come from the external rapidfuzz library, which is
not part of this repository.  They are modelled from the specification's
section 4.2: fuzz.ratio is the normalized indel (insert/delete) edit-distance
ratio; the second strategy is the best ratio of the shorter string against any
contiguous substring of the longer; fuzz.token_set_ratio is the tokenize /
dedup / intersect reconstruction taking the best of three ratios.
-/
import Mathlib

abbrev Str := List Char

/-- Python str.lower, modelled characterwise. -/
def lowerStr (s : Str) : Str := s.map Char.toLower

/-- Reference definition of the length of a longest common subsequence of two
character lists (the textbook recursion); used in proofs, while evaluation
goes through the dynamic-programming implementation below. -/
def lcsSpec : Str → Str → ℕ
  | [], _ => 0
  | _ :: _, [] => 0
  | a :: as, b :: bs =>
    if a = b then lcsSpec as bs + 1
    else max (lcsSpec (a :: as) bs) (lcsSpec as (b :: bs))
termination_by as bs => as.length + bs.length

/-- Cons a natural number onto a list, pattern-matching on it first (so that
exposing the spine of a dynamic-programming row also evaluates each entry,
keeping lazy-evaluation chains shallow). -/
def natCons (n : ℕ) (rest : List ℕ) : List ℕ :=
  match n with
  | 0 => 0 :: rest
  | m + 1 => (m + 1) :: rest

/-- One dynamic-programming step for the LCS: given the list of LCS values of
each suffix of xs against ys, produce the same list against (y :: ys). -/
def lcsImpl (y : Char) : Str → List ℕ → List ℕ
  | x :: xs, r0 :: r1 :: rs =>
    let rest := lcsImpl y xs (r1 :: rs)
    natCons (if x = y then r1 + 1 else max (rest.headD 0) r0) rest
  | _, r => r

/-- LCS values of every suffix of xs against ys (dynamic programming over ys;
the first entry is the LCS of xs and ys, the last is 0). -/
def lcsSuffixes (xs ys : Str) : List ℕ :=
  ys.foldr (fun y row => lcsImpl y xs row) (List.replicate (xs.length + 1) 0)

/-- Length of a longest common subsequence, computed by dynamic programming. -/
def lcs (xs ys : Str) : ℕ := (lcsSuffixes xs ys).headD 0

/-- The indel edit distance (insertions and deletions only, each of cost 1)
between two character lists: the distance underlying rapidfuzz similarity,
equal to the total length minus twice the longest common subsequence. -/
def indel (a b : Str) : ℕ := a.length + b.length - 2 * lcs a b

/-- Modelled from the spec: direct similarity, "a normalized
edit-distance-based ratio over the full strings (100 = identical, 0 =
completely dissimilar), scaled to [0,100]" (rapidfuzz fuzz.ratio):
100 * (1 - indel/(len a + len b)), i.e. 100 * (n - indel) / n for total length
n, and 100 when both strings are empty. -/
def ratio (a b : Str) : ℚ :=
  let n := a.length + b.length
  if n = 0 then 100 else mkRat (100 * (n - indel a b)) n

/-- The candidate alignments of a window of length n against the list l: every
contiguous window of length n, together with the clipped windows that overhang
either end (prefixes and suffixes of length below n). -/
def alignWindows (n : ℕ) (l : Str) : List Str :=
  ((List.range (n - 1)).map (fun j => l.take (j + 1))) ++
    ((List.range l.length).map (fun i => (l.drop i).take n))

/-- Combine adjacent pairs of a list of rationals by max (one balancing round
of the logarithmic-depth maximum computation). -/
def pairMax : List ℚ → List ℚ
  | [] => []
  | [x] => [x]
  | x :: y :: rest => max x y :: pairMax rest

/-- Maximum of a list of rationals computed as a balanced tree (the fuel is an
upper bound on the number of halving rounds); 0 for the empty list. -/
def maxQAux : ℕ → List ℚ → ℚ
  | _, [] => 0
  | _, [x] => x
  | 0, x :: _ :: _ => x
  | fuel + 1, x :: y :: rest => maxQAux fuel (pairMax (x :: y :: rest))

/-- Maximum of a list of rationals (0 if empty). -/
def maxQ (l : List ℚ) : ℚ := maxQAux l.length l

/-- Modelled from the spec: "the best-aligned-substring ratio: the highest
direct-similarity score obtainable by comparing the shorter string against the
best-matching substring of the longer string" (the second rapidfuzz scoring
strategy used by fuzzy_search).  The best alignment is searched by sliding a
window of the shorter string's length across the longer string, including the
clipped windows that overhang either end. -/
def substringRatio (a b : Str) : ℚ :=
  let p := if a.length ≤ b.length then (a, b) else (b, a)
  maxQ ((alignWindows p.1.length p.2).map (fun w => ratio p.1 w))

/-- Is the character Python whitespace (for str.split)? -/
def isWs (c : Char) : Bool := c.isWhitespace

/-- Helper for whitespace tokenization: current word (reversed) and rest. -/
def splitWsAux : Str → Str → List Str
  | cur, [] => if cur.isEmpty then [] else [cur.reverse]
  | cur, c :: cs =>
    if isWs c then
      if cur.isEmpty then splitWsAux [] cs else cur.reverse :: splitWsAux [] cs
    else splitWsAux (c :: cur) cs

/-- Python str.split() with no arguments: split on whitespace runs. -/
def splitWs (s : Str) : List Str := splitWsAux [] s

/-- Lexicographic comparison of tokens by character code (Python str <=). -/
def tokLe : Str → Str → Bool
  | [], _ => true
  | _ :: _, [] => false
  | a :: as, b :: bs => if a.val < b.val then true else if b.val < a.val then false else tokLe as bs

/-- Sorted unique tokens of a string (Python sorted(set(s.split()))). -/
def sortedTokens (s : Str) : List Str :=
  List.insertionSort (fun a b => tokLe a b = true) (splitWs s).eraseDups

/-- Join tokens with single spaces (Python " ".join). -/
def joinTokens (ts : List Str) : Str := (ts.intersperse [' ']).flatten

/-- Modelled from the spec: token-set similarity, "tokenizes both strings on
whitespace, deduplicates tokens per string, forms the intersection and the two
symmetric differences, reconstructs comparison strings from (intersection +
sorted differences) and takes the best ratio" (rapidfuzz fuzz.token_set_ratio). -/
def tokenSetRatio (a b : Str) : ℚ :=
  let ta := sortedTokens a
  let tb := sortedTokens b
  let sect := ta.filter (fun t => t ∈ tb)
  let d1 := ta.filter (fun t => t ∉ tb)
  let d2 := tb.filter (fun t => t ∉ ta)
  let s0 := joinTokens sect
  let s1 := joinTokens (sect ++ d1)
  let s2 := joinTokens (sect ++ d2)
  max (ratio s0 s1) (max (ratio s0 s2) (ratio s1 s2))

/-- The combined score used by fuzzy_search: the maximum of the three
strategies (fuzzy.py line 131: max of ratio/partial/token_set, all applied to
the lowercased query and candidate name). -/
def scoreOf (q n : Str) : ℚ := max (ratio q n) (max (substringRatio q n) (tokenSetRatio q n))

/-- Banker's rounding of a rational to an integer (Python round() semantics on
exact values: round half to even).  With f the floor of x, the fractional part
x - f compares to 1/2 exactly as 2 * (num - f * den) compares to den. -/
def bankRound (x : ℚ) : ℤ :=
  let f := Int.fdiv x.num x.den
  let t := 2 * (x.num - f * x.den)
  if t < x.den then f else if (x.den : ℤ) < t then f + 1 else if f % 2 = 0 then f else f + 1

/-- Multiply a rational by 10 (kept in terms of the numerator so that concrete
evaluation stays within the numeral fast path). -/
def mulTen (x : ℚ) : ℚ := mkRat (10 * x.num) x.den

/-- Python round(x, 1): round to one decimal place, half to even. -/
def round1 (x : ℚ) : ℚ := mkRat (bankRound (mulTen x)) 10


/-- A primary (database) athlete record as consumed by
build_search_candidates: id, display_name, aliases (possibly absent), and
appearance_count (defaulting to 0 is folded into the field). -/
structure DbAthlete where
  id : Int
  display_name : Str
  aliases : Option (List Str)
  appearance_count : Int
deriving DecidableEq

/-- A known-athletes registry record as consumed by build_search_candidates:
full_name and the optional db_athlete_id link (None when absent).  The
first_name field of the source records is never read by the function and is
omitted. -/
structure KnownAthlete where
  full_name : Str
  db_athlete_id : Option Int
deriving DecidableEq

/-- A single searchable name entry (fuzzy.py SearchCandidate). -/
structure SearchCandidate where
  name : Str
  athlete_id : Option Int
  display_name : Str
  source : String
  appearance_count : Int
deriving DecidableEq

/-- A fuzzy search result (fuzzy.py FuzzyMatch). -/
structure FuzzyMatch where
  athlete_id : Option Int
  display_name : Str
  similarity_score : ℚ
  matched_on : Str
  source : String
  appearance_count : Int
deriving DecidableEq

/-- The candidates contributed by the primary loop of build_search_candidates:
for each athlete its display_name and then each alias, all carrying the
athlete's id, display_name and appearance_count with source "db".  The source
expression (athlete.get("aliases", None) or []) is modelled by
(aliases.getD []): both turn a missing or empty alias list into []. -/
def dbCandidates (db_athletes : List DbAthlete) : List SearchCandidate :=
  db_athletes.flatMap (fun a =>
    ⟨a.display_name, some a.id, a.display_name, "db", a.appearance_count⟩ ::
      (a.aliases.getD []).map
        (fun al => ⟨al, some a.id, a.display_name, "db", a.appearance_count⟩))

/-- Python truthiness of the optional db_athlete_id: None and 0 are falsy. -/
def truthyId : Option Int → Bool
  | none => false
  | some i => i != 0

/-- The weight lookup of the known-athlete loop: the appearance_count of the
first already-built candidate whose athlete_id equals db_id, else 0. -/
def knownWeight (acc : List SearchCandidate) (dbId : Option Int) : Int :=
  ((acc.find? (fun c => decide (c.athlete_id = dbId))).map
    (fun c => c.appearance_count)).getD 0

/-- One iteration of the known-athletes loop of build_search_candidates on the
accumulated candidate list (fuzzy.py lines 72-107): skip when the link is
truthy and already among dbIds; otherwise append a linked candidate (weight
looked up in the accumulated list) or an unlinked one. -/
def knownStep (dbIds : List (Option Int)) (acc : List SearchCandidate)
    (ka : KnownAthlete) : List SearchCandidate :=
  if truthyId ka.db_athlete_id = true ∧ ka.db_athlete_id ∈ dbIds then acc
  else if truthyId ka.db_athlete_id = true then
    acc ++ [⟨ka.full_name, ka.db_athlete_id, ka.full_name, "known",
      knownWeight acc ka.db_athlete_id⟩]
  else acc ++ [⟨ka.full_name, none, ka.full_name, "known", 0⟩]

/-- fuzzy.py build_search_candidates: flatten primary athletes (display name
plus aliases), then fold the known-athletes registry over the accumulated
list, with db_ids computed once from the primary candidates.  A None registry
and an empty one both leave the primary candidates unchanged. -/
def build_search_candidates (db_athletes : List DbAthlete)
    (known_athletes : Option (List KnownAthlete)) : List SearchCandidate :=
  let candidates := dbCandidates db_athletes
  match known_athletes with
  | none => candidates
  | some kas => kas.foldl (knownStep (candidates.map (fun c => c.athlete_id))) candidates

/-- The FuzzyMatch built from a candidate and its raw score (fuzzy.py lines
139-146); the stored similarity_score is the raw score rounded to one decimal
place. -/
def mkMatch (c : SearchCandidate) (s : ℚ) : FuzzyMatch :=
  ⟨c.athlete_id, c.display_name, round1 s, c.name, c.source, c.appearance_count⟩

/-- The scoring and threshold pass of fuzzy_search (lines 126-148): for each
candidate in order, score the lowercased query against the lowercased name
with the three strategies, keep those with raw score at or above the
threshold, and record the match together with the raw direct ratio used as
tie-breaker. -/
def scoredList (query : Str) (candidates : List SearchCandidate)
    (threshold : ℚ) : List (FuzzyMatch × ℚ) :=
  candidates.filterMap (fun c =>
    let ql := lowerStr query
    let nl := lowerStr c.name
    if threshold ≤ scoreOf ql nl then some (mkMatch c (scoreOf ql nl), ratio ql nl)
    else none)

/-- Lookup in the insertion-ordered association list modelling the Python
dict best_by_id. -/
def dictFind (i : Int) (m : List (Int × FuzzyMatch × ℚ)) : Option (FuzzyMatch × ℚ) :=
  (m.find? (fun e => decide (e.1 = i))).map (fun e => e.2)

/-- Update of the insertion-ordered association list: replace in place when
the key exists (keeping its position, as a CPython dict does), else append. -/
def dictSet (i : Int) (v : FuzzyMatch × ℚ) :
    List (Int × FuzzyMatch × ℚ) → List (Int × FuzzyMatch × ℚ)
  | [] => [(i, v)]
  | e :: es => if e.1 = i then (i, v) :: es else e :: dictSet i v es

/-- The deduplication loop of fuzzy_search (lines 150-166): walk the scored
list, collecting unlinked matches in order and, per athlete_id, keeping the
match with the higher stored (rounded) similarity_score, breaking ties by the
higher raw direct ratio, first-seen winning remaining ties. -/
def dedupFold :
    List (Int × FuzzyMatch × ℚ) → List FuzzyMatch → List (FuzzyMatch × ℚ) →
      List (Int × FuzzyMatch × ℚ) × List FuzzyMatch
  | best, unlinked, [] => (best, unlinked)
  | best, unlinked, (m, direct) :: rest =>
    match m.athlete_id with
    | none => dedupFold best (unlinked ++ [m]) rest
    | some i =>
      match dictFind i best with
      | none => dedupFold (dictSet i (m, direct) best) unlinked rest
      | some (em, ed) =>
        if em.similarity_score < m.similarity_score then
          dedupFold (dictSet i (m, direct) best) unlinked rest
        else if m.similarity_score = em.similarity_score ∧ ed < direct then
          dedupFold (dictSet i (m, direct) best) unlinked rest
        else dedupFold best unlinked rest

/-- The deduplicated result list before sorting and truncation (fuzzy.py line
168): the per-id representatives in dict insertion order followed by the
unlinked matches in first-seen order. -/
def dedupResults (query : Str) (candidates : List SearchCandidate)
    (threshold : ℚ) : List FuzzyMatch :=
  let p := dedupFold [] [] (scoredList query candidates threshold)
  p.1.map (fun e => e.2.1) ++ p.2

/-- The stable descending sort by similarity_score (fuzzy.py line 169,
results.sort(key=..., reverse=True)).  Python's sort is stable; insertion
sort with this relation computes the same list. -/
def sortByScore (l : List FuzzyMatch) : List FuzzyMatch :=
  List.insertionSort (fun a b => b.similarity_score ≤ a.similarity_score) l

/-- Python list slicing l[:n] with a possibly negative n. -/
def pyTake (n : Int) (l : List α) : List α :=
  if 0 ≤ n then l.take n.toNat else l.take (l.length - (-n).toNat)

/-- fuzzy.py fuzzy_search(query, candidates, limit=10, threshold=45): score,
filter by threshold, deduplicate by athlete_id, sort by the stored rounded
score descending, and truncate to the first limit entries. -/
def fuzzy_search (query : Str) (candidates : List SearchCandidate)
    (limit : Int) (threshold : ℚ) : List FuzzyMatch :=
  pyTake limit (sortByScore (dedupResults query candidates threshold))

/-- Modelled from the spec: the per-group representative selection, "an
explicit fold with the defined total order (score, then direct-similarity,
then first-seen)": the incumbent is replaced exactly when the challenger has a
strictly higher stored score, or an equal stored score and a strictly higher
direct ratio. -/
def selectRepAux :
    Option (FuzzyMatch × ℚ) → List (FuzzyMatch × ℚ) → Option (FuzzyMatch × ℚ)
  | acc, [] => acc
  | none, md :: rest => selectRepAux (some md) rest
  | some cur, md :: rest =>
    if cur.1.similarity_score < md.1.similarity_score ∨
        (md.1.similarity_score = cur.1.similarity_score ∧ cur.2 < md.2) then
      selectRepAux (some md) rest
    else selectRepAux (some cur) rest

/-- Modelled from the spec: the representative of one canonical-id group,
as the explicit fold of selectRepAux started empty over the group in
first-seen order. -/
def selectRep (group : List (FuzzyMatch × ℚ)) : Option (FuzzyMatch × ℚ) :=
  selectRepAux none group

/-! ### Correctness of the LCS dynamic programming and basic score bounds -/

theorem lcsSpec_nil_right (t : Str) : lcsSpec t [] = 0 := by
  cases t <;> simp [lcsSpec]

theorem natCons_eq_cons (n : ℕ) (l : List ℕ) : natCons n l = n :: l := by
  cases n <;> simp [natCons]

theorem tails_map_headD (f : Str → ℕ) (xs : Str) :
    ((xs.tails.map f).headD 0) = f xs := by
  cases xs <;> simp [List.tails]

theorem lcsImpl_eq (y : Char) (ys : Str) (xs : Str) :
    lcsImpl y xs (xs.tails.map (fun t => lcsSpec t ys)) =
      xs.tails.map (fun t => lcsSpec t (y :: ys)) := by
  induction xs with
  | nil => simp [List.tails, lcsImpl, lcsSpec]
  | cons x xs ih =>
    cases xs with
    | nil =>
      simp only [List.tails, List.map, lcsImpl, natCons_eq_cons, List.headD]
      simp [lcsSpec, lcsSpec_nil_right, Nat.max_comm]
    | cons x' xs' =>
      have hx : (x' :: xs').tails = (x' :: xs') :: xs'.tails := List.tails_cons x' xs'
      rw [List.tails_cons, List.map_cons, hx, List.map_cons]
      rw [lcsImpl]
      have hrow : lcsSpec (x' :: xs') ys :: List.map (fun t => lcsSpec t ys) xs'.tails =
          List.map (fun t => lcsSpec t ys) (x' :: xs').tails := by
        rw [hx, List.map_cons]
      rw [hrow, ih, tails_map_headD, natCons_eq_cons]
      rw [List.map_cons, hx, List.map_cons]
      have hhead : (if x = y then lcsSpec (x' :: xs') ys + 1
          else max (lcsSpec (x' :: xs') (y :: ys)) (lcsSpec (x :: x' :: xs') ys)) =
          lcsSpec (x :: x' :: xs') (y :: ys) := by
        conv_rhs => rw [lcsSpec]
        rcases Decidable.em (x = y) with h | h
        · simp [h]
        · simp [h, Nat.max_comm]
      rw [hhead]

theorem lcsSuffixes_eq (xs ys : Str) :
    lcsSuffixes xs ys = xs.tails.map (fun t => lcsSpec t ys) := by
  induction ys with
  | nil =>
    simp only [lcsSuffixes, List.foldr_nil]
    symm
    rw [List.eq_replicate_iff]
    refine ⟨by simp [List.length_tails], ?_⟩
    intro b hb
    obtain ⟨t, _, rfl⟩ := List.mem_map.mp hb
    exact lcsSpec_nil_right t
  | cons y ys ih =>
    simp only [lcsSuffixes, List.foldr_cons] at *
    rw [ih, lcsImpl_eq]

theorem lcs_eq_lcsSpec (xs ys : Str) : lcs xs ys = lcsSpec xs ys := by
  rw [lcs, lcsSuffixes_eq, tails_map_headD]

theorem lcsSpec_self (l : Str) : lcsSpec l l = l.length := by
  induction l with
  | nil => simp [lcsSpec]
  | cons a as ih => simp [lcsSpec, ih]

theorem indel_self (l : Str) : indel l l = 0 := by
  simp [indel, lcs_eq_lcsSpec, lcsSpec_self, Nat.mul_comm]
  omega

theorem mkRat_le_100 (a : ℤ) (n : ℕ) (hn : n ≠ 0) (h : a ≤ 100 * n) : mkRat a n ≤ 100 := by
  rw [Rat.mkRat_eq_divInt, Rat.divInt_eq_div]
  have hpos : (0 : ℚ) < (n : ℚ) := by exact_mod_cast Nat.pos_of_ne_zero hn
  push_cast
  rw [div_le_iff₀ hpos]
  calc ((a : ℤ) : ℚ) ≤ ((100 * n : ℤ) : ℚ) := by exact_mod_cast h
    _ = 100 * (n : ℚ) := by push_cast; ring

theorem mkRat_nonneg (a : ℤ) (n : ℕ) (h : 0 ≤ a) : 0 ≤ mkRat a n := by
  rw [Rat.mkRat_eq_divInt, Rat.divInt_eq_div]
  apply div_nonneg
  · exact_mod_cast h
  · exact_mod_cast Nat.zero_le _

theorem ratio_self (l : Str) : ratio l l = 100 := by
  simp only [ratio, indel_self]
  rcases Nat.eq_zero_or_pos l.length with h | h
  · simp [h]
  · have hn : ¬(l.length + l.length = 0) := by omega
    simp only [hn, if_false]
    rw [Rat.mkRat_eq_divInt, Rat.divInt_eq_div]
    have hq : ((l.length + l.length : ℕ) : ℚ) ≠ 0 := by
      exact_mod_cast hn
    push_cast at hq ⊢
    field_simp

theorem ratio_le_100 (a b : Str) : ratio a b ≤ 100 := by
  simp only [ratio]
  rcases Decidable.em (a.length + b.length = 0) with h | h
  · simp [h]
  · simp only [h, if_false]
    apply mkRat_le_100 _ _ h
    have : (0 : ℤ) ≤ (indel a b : ℤ) := by exact_mod_cast Nat.zero_le _
    push_cast
    nlinarith [this]

theorem ratio_nonneg (a b : Str) : 0 ≤ ratio a b := by
  simp only [ratio]
  rcases Decidable.em (a.length + b.length = 0) with h | h
  · simp [h]
  · simp only [h, if_false]
    apply mkRat_nonneg
    have hle : indel a b ≤ a.length + b.length := Nat.sub_le _ _
    have : (indel a b : ℤ) ≤ ((a.length + b.length : ℕ) : ℤ) := by exact_mod_cast hle
    push_cast at this ⊢
    nlinarith [this]

theorem pairMax_le (B : ℚ) : ∀ (l : List ℚ), (∀ x ∈ l, x ≤ B) → ∀ y ∈ pairMax l, y ≤ B
  | [], _ => by simp [pairMax]
  | [x], h => by simpa [pairMax] using h
  | x :: y :: rest, h => by
    simp only [pairMax, List.mem_cons]
    rintro z (rfl | hz)
    · exact max_le (h x (by simp)) (h y (by simp))
    · exact pairMax_le B rest (fun w hw => h w (by simp [hw])) z hz

theorem maxQAux_le (B : ℚ) (h0 : 0 ≤ B) :
    ∀ (fuel : ℕ) (l : List ℚ), (∀ x ∈ l, x ≤ B) → maxQAux fuel l ≤ B
  | _, [], _ => by simpa [maxQAux] using h0
  | _, [x], h => by simpa [maxQAux] using h x (by simp)
  | 0, x :: y :: rest, h => by simpa [maxQAux] using h x (by simp)
  | fuel + 1, x :: y :: rest, h => by
    simp only [maxQAux]
    exact maxQAux_le B h0 fuel _ (pairMax_le B _ h)

theorem maxQ_le (B : ℚ) (h0 : 0 ≤ B) (l : List ℚ) (h : ∀ x ∈ l, x ≤ B) : maxQ l ≤ B :=
  maxQAux_le B h0 l.length l h

theorem substringRatio_le_100 (a b : Str) : substringRatio a b ≤ 100 := by
  simp only [substringRatio]
  apply maxQ_le _ (by norm_num)
  intro x hx
  obtain ⟨w, _, rfl⟩ := List.mem_map.mp hx
  exact ratio_le_100 _ _

theorem tokenSetRatio_le_100 (a b : Str) : tokenSetRatio a b ≤ 100 := by
  simp only [tokenSetRatio]
  exact max_le (ratio_le_100 _ _) (max_le (ratio_le_100 _ _) (ratio_le_100 _ _))

theorem scoreOf_le_100 (q n : Str) : scoreOf q n ≤ 100 := by
  simp only [scoreOf]
  exact max_le (ratio_le_100 _ _)
    (max_le (substringRatio_le_100 _ _) (tokenSetRatio_le_100 _ _))

theorem scoreOf_self (l : Str) : scoreOf l l = 100 := by
  simp only [scoreOf, ratio_self]
  rw [max_eq_left]
  exact max_le (substringRatio_le_100 _ _) (tokenSetRatio_le_100 _ _)

theorem round1_100 : round1 100 = 100 := by decide

/-! ### Candidate builder: skip and unlinked behaviour -/

theorem dbCandidates_source (db : List DbAthlete) :
    ∀ c ∈ dbCandidates db, c.source = "db" := by
  intro c hc
  simp only [dbCandidates, List.mem_flatMap] at hc
  obtain ⟨a, _, hc⟩ := hc
  rcases List.mem_cons.mp hc with h | h
  · rw [h]
  · obtain ⟨al, _, rfl⟩ := List.mem_map.mp h
    rfl

theorem knownStep_skip (dbIds : List (Option Int)) (acc : List SearchCandidate)
    (ka : KnownAthlete) (i : Int) (hid : ka.db_athlete_id = some i) (hnz : i ≠ 0)
    (hmem : ka.db_athlete_id ∈ dbIds) : knownStep dbIds acc ka = acc := by
  have ht : truthyId ka.db_athlete_id = true := by
    rw [hid]; simpa [truthyId] using hnz
  simp [knownStep, ht, hmem]

theorem knownStep_falsy (dbIds : List (Option Int)) (acc : List SearchCandidate)
    (ka : KnownAthlete) (hid : ka.db_athlete_id = some 0 ∨ ka.db_athlete_id = none) :
    knownStep dbIds acc ka = acc ++ [⟨ka.full_name, none, ka.full_name, "known", 0⟩] := by
  have ht : truthyId ka.db_athlete_id = false := by
    rcases hid with h | h <;> simp [truthyId, h]
  simp [knownStep, ht]

theorem knownStep_pres (dbIds : List (Option Int)) (i : Int)
    (hdb : some i ∈ dbIds) (acc : List SearchCandidate) (ka : KnownAthlete)
    (hacc : ∀ c ∈ acc, c.athlete_id = some i → c.source = "db") :
    ∀ c ∈ knownStep dbIds acc ka, c.athlete_id = some i → c.source = "db" := by
  intro c hc
  by_cases h1 : truthyId ka.db_athlete_id = true ∧ ka.db_athlete_id ∈ dbIds
  · rw [knownStep, if_pos h1] at hc
    exact hacc c hc
  · by_cases h2 : truthyId ka.db_athlete_id = true
    · rw [knownStep, if_neg h1, if_pos h2] at hc
      rcases List.mem_append.mp hc with h | h
      · exact hacc c h
      · simp only [List.mem_singleton] at h
        subst h
        intro hci
        exfalso
        apply h1
        refine ⟨h2, ?_⟩
        simp only at hci
        rw [hci]
        exact hdb
    · rw [knownStep, if_neg h1, if_neg h2] at hc
      rcases List.mem_append.mp hc with h | h
      · exact hacc c h
      · simp only [List.mem_singleton] at h
        subst h
        intro hci
        simp at hci

theorem knownFold_pres (dbIds : List (Option Int)) (i : Int) (hdb : some i ∈ dbIds) :
    ∀ (ks : List KnownAthlete) (acc : List SearchCandidate),
      (∀ c ∈ acc, c.athlete_id = some i → c.source = "db") →
      ∀ c ∈ ks.foldl (knownStep dbIds) acc, c.athlete_id = some i → c.source = "db"
  | [], acc, hacc => by simpa using hacc
  | ka :: ks, acc, hacc => by
    simp only [List.foldl_cons]
    exact knownFold_pres dbIds i hdb ks _ (knownStep_pres dbIds i hdb acc ka hacc)

/-- C3: a known record linked (with a truthy, i.e. nonzero, id) to a canonical
id that already appears among the primary-derived candidates is skipped
entirely: removing it from the registry does not change the output at all,
and consequently every candidate carrying that id has source "db" (primary). -/
theorem secondary_dedup_skip (db : List DbAthlete) (k1 k2 : List KnownAthlete)
    (ka : KnownAthlete) (i : Int) (hid : ka.db_athlete_id = some i) (hnz : i ≠ 0)
    (hmem : some i ∈ (dbCandidates db).map (fun c => c.athlete_id)) :
    build_search_candidates db (some (k1 ++ ka :: k2)) =
      build_search_candidates db (some (k1 ++ k2)) ∧
    ∀ c ∈ build_search_candidates db (some (k1 ++ ka :: k2)),
      c.athlete_id = some i → c.source = "db" := by
  constructor
  · simp only [build_search_candidates, List.foldl_append, List.foldl_cons]
    rw [knownStep_skip _ _ ka i hid hnz (by rw [hid]; exact hmem)]
  · simp only [build_search_candidates, List.foldl_append, List.foldl_cons]
    rw [knownStep_skip _ _ ka i hid hnz (by rw [hid]; exact hmem)]
    rw [← List.foldl_append]
    exact knownFold_pres _ i hmem (k1 ++ k2) _
      (fun c hc _ => dbCandidates_source db c hc)

/-- C9: a known record whose db_athlete_id is the falsy value 0 (or None) is
treated as unlinked: it is never skipped — whatever the primary candidates
are, it appends exactly one candidate with athlete_id none, source "known"
and appearance_count 0 (and the same holds for a missing link). -/
theorem falsy_link_treated_unlinked (db : List DbAthlete) (k1 : List KnownAthlete)
    (nm : Str) :
    build_search_candidates db (some (k1 ++ [⟨nm, some 0⟩])) =
      build_search_candidates db (some k1) ++ [⟨nm, none, nm, "known", 0⟩] ∧
    build_search_candidates db (some (k1 ++ [⟨nm, none⟩])) =
      build_search_candidates db (some k1) ++ [⟨nm, none, nm, "known", 0⟩] := by
  constructor
  · simp only [build_search_candidates, List.foldl_append, List.foldl_cons, List.foldl_nil]
    exact knownStep_falsy _ _ _ (Or.inl rfl)
  · simp only [build_search_candidates, List.foldl_append, List.foldl_cons, List.foldl_nil]
    exact knownStep_falsy _ _ _ (Or.inr rfl)

/-! ### The best_by_id dict: association list lemmas -/

theorem dictSet_mem (i : Int) (v : FuzzyMatch × ℚ) :
    ∀ (m : List (Int × FuzzyMatch × ℚ)) (e), e ∈ dictSet i v m → e = (i, v) ∨ e ∈ m
  | [], e, he => by simpa [dictSet] using he
  | f :: fs, e, he => by
    by_cases h : f.1 = i
    · rw [dictSet, if_pos h] at he
      rcases List.mem_cons.mp he with h' | h'
      · exact Or.inl h'
      · exact Or.inr (List.mem_cons_of_mem _ h')
    · rw [dictSet, if_neg h] at he
      rcases List.mem_cons.mp he with h' | h'
      · exact Or.inr (h' ▸ List.mem_cons_self _ _)
      · rcases dictSet_mem i v fs e h' with h'' | h''
        · exact Or.inl h''
        · exact Or.inr (List.mem_cons_of_mem _ h'')

theorem dictSet_map_fst (i : Int) (v : FuzzyMatch × ℚ) :
    ∀ (m : List (Int × FuzzyMatch × ℚ)),
      (dictSet i v m).map Prod.fst =
        if i ∈ m.map Prod.fst then m.map Prod.fst else m.map Prod.fst ++ [i]
  | [] => by simp [dictSet]
  | f :: fs => by
    by_cases h : f.1 = i
    · rw [dictSet, if_pos h]
      simp [h]
    · rw [dictSet, if_neg h]
      have hne : ¬ i = f.1 := fun hh => h hh.symm
      by_cases hm : i ∈ fs.map Prod.fst
      · simp [dictSet_map_fst i v fs, hm, hne]
      · simp [dictSet_map_fst i v fs, hm, hne]

theorem dictSet_keys_nodup (i : Int) (v : FuzzyMatch × ℚ)
    (m : List (Int × FuzzyMatch × ℚ)) (h : (m.map Prod.fst).Nodup) :
    ((dictSet i v m).map Prod.fst).Nodup := by
  rw [dictSet_map_fst]
  by_cases hm : i ∈ m.map Prod.fst
  · simpa [hm] using h
  · simp only [hm, if_false]
    rw [List.nodup_append]
    refine ⟨h, List.nodup_singleton i, ?_⟩
    intro a ha hai
    simp only [List.mem_singleton] at hai
    exact hm (hai ▸ ha)

theorem dictFind_none_iff (i : Int) (m : List (Int × FuzzyMatch × ℚ)) :
    dictFind i m = none ↔ i ∉ m.map Prod.fst := by
  simp only [dictFind, Option.map_eq_none', List.find?_eq_none, List.mem_map]
  constructor
  · rintro h ⟨e, he, rfl⟩
    simpa using h e he
  · intro h e he
    simp only [decide_eq_true_eq]
    intro hei
    exact h ⟨e, he, hei⟩

theorem dictFind_dictSet_self (i : Int) (v : FuzzyMatch × ℚ) :
    ∀ (m : List (Int × FuzzyMatch × ℚ)), dictFind i (dictSet i v m) = some v
  | [] => by simp [dictSet, dictFind]
  | f :: fs => by
    by_cases h : f.1 = i
    · rw [dictSet, if_pos h]
      simp [dictFind]
    · rw [dictSet, if_neg h]
      have : dictFind i (f :: dictSet i v fs) = dictFind i (dictSet i v fs) := by
        simp [dictFind, List.find?_cons, h]
      rw [this]
      exact dictFind_dictSet_self i v fs

theorem dictFind_dictSet_ne (i j : Int) (hne : j ≠ i) (v : FuzzyMatch × ℚ) :
    ∀ (m : List (Int × FuzzyMatch × ℚ)), dictFind j (dictSet i v m) = dictFind j m
  | [] => by simp [dictSet, dictFind, Ne.symm hne]
  | f :: fs => by
    by_cases h : f.1 = i
    · rw [dictSet, if_pos h]
      have h1 : ¬ ((i : Int) = j) := Ne.symm hne
      have h2 : ¬ (f.1 = j) := by rw [h]; exact h1
      simp [dictFind, List.find?_cons, h1, h2]
    · rw [dictSet, if_neg h]
      by_cases h2 : f.1 = j
      · simp [dictFind, List.find?_cons, h2]
      · have hstep : ∀ (l : List (Int × FuzzyMatch × ℚ)), dictFind j (f :: l) = dictFind j l := by
          intro l
          simp only [dictFind]
          rw [List.find?_cons_of_neg _ (by simpa using h2)]
        rw [hstep, hstep]
        exact dictFind_dictSet_ne i j hne v fs

theorem dictFind_of_mem_nodup :
    ∀ (m : List (Int × FuzzyMatch × ℚ)) (e), (m.map Prod.fst).Nodup → e ∈ m →
      dictFind e.1 m = some e.2
  | [], e, _, he => by simp at he
  | f :: fs, e, hnd, he => by
    rcases List.mem_cons.mp he with h | h
    · subst h
      simp [dictFind]
    · have hne : f.1 ≠ e.1 := by
        intro hcontra
        have : f.1 ∈ fs.map Prod.fst := hcontra ▸ List.mem_map.mpr ⟨e, h, rfl⟩
        simp only [List.map_cons, List.nodup_cons] at hnd
        exact hnd.1 this
      have hrest := dictFind_of_mem_nodup fs e (by
        simp only [List.map_cons, List.nodup_cons] at hnd
        exact hnd.2) h
      have hstep : dictFind e.1 (f :: fs) = dictFind e.1 fs := by
        simp only [dictFind]
        rw [List.find?_cons_of_neg _ (by simpa using hne)]
      rw [hstep]
      exact hrest

/-! ### The deduplication fold: invariants -/

theorem dedupFold_cons_cases (best : List (Int × FuzzyMatch × ℚ)) (unl : List FuzzyMatch)
    (m : FuzzyMatch) (d : ℚ) (rest : List (FuzzyMatch × ℚ)) :
    (m.athlete_id = none ∧
      dedupFold best unl ((m, d) :: rest) = dedupFold best (unl ++ [m]) rest) ∨
    (∃ i, m.athlete_id = some i ∧
      dedupFold best unl ((m, d) :: rest) = dedupFold (dictSet i (m, d) best) unl rest) ∨
    (∃ i, m.athlete_id = some i ∧
      dedupFold best unl ((m, d) :: rest) = dedupFold best unl rest ∧ dictFind i best ≠ none) := by
  rcases hid : m.athlete_id with _ | i
  · exact Or.inl ⟨rfl, by simp only [dedupFold, hid]⟩
  · rcases hf : dictFind i best with _ | ⟨em, ed⟩
    · refine Or.inr (Or.inl ⟨i, rfl, ?_⟩)
      simp only [dedupFold, hid, hf]
    · by_cases hlt : em.similarity_score < m.similarity_score
      · refine Or.inr (Or.inl ⟨i, rfl, ?_⟩)
        simp only [dedupFold, hid, hf]
        simp [hlt]
      · by_cases htie : m.similarity_score = em.similarity_score ∧ ed < d
        · refine Or.inr (Or.inl ⟨i, rfl, ?_⟩)
          simp only [dedupFold, hid, hf]
          simp [hlt, htie]
        · refine Or.inr (Or.inr ⟨i, rfl, ?_, by simp [hf]⟩)
          simp only [dedupFold, hid, hf]
          simp [hlt, htie]

theorem dedupFold_unlinked :
    ∀ (s : List (FuzzyMatch × ℚ)) (best : List (Int × FuzzyMatch × ℚ)) (unl : List FuzzyMatch),
      (dedupFold best unl s).2 =
        unl ++ (s.filter (fun md => md.1.athlete_id.isNone)).map Prod.fst
  | [], best, unl => by simp [dedupFold]
  | (m, d) :: rest, best, unl => by
    rcases dedupFold_cons_cases best unl m d rest with ⟨hid, heq⟩ | ⟨i, hid, heq⟩ | ⟨i, hid, heq, _⟩
    · rw [heq, dedupFold_unlinked rest]
      simp [List.filter_cons, hid]
    · rw [heq, dedupFold_unlinked rest]
      simp [List.filter_cons, hid]
    · rw [heq, dedupFold_unlinked rest]
      simp [List.filter_cons, hid]

theorem dedupFold_best_sub :
    ∀ (s : List (FuzzyMatch × ℚ)) (best : List (Int × FuzzyMatch × ℚ)) (unl : List FuzzyMatch)
      (e : Int × FuzzyMatch × ℚ), e ∈ (dedupFold best unl s).1 → e ∈ best ∨ e.2 ∈ s
  | [], best, unl, e => by
    intro he
    simp only [dedupFold] at he
    exact Or.inl he
  | (m, d) :: rest, best, unl, e => by
    intro he
    rcases dedupFold_cons_cases best unl m d rest with ⟨hid, heq⟩ | ⟨i, hid, heq⟩ | ⟨i, hid, heq, _⟩
    · rcases dedupFold_best_sub rest best (unl ++ [m]) e (heq ▸ he) with h | h
      · exact Or.inl h
      · exact Or.inr (List.mem_cons_of_mem _ h)
    · rcases dedupFold_best_sub rest (dictSet i (m, d) best) unl e (heq ▸ he) with h | h
      · rcases dictSet_mem i (m, d) best e h with h' | h'
        · exact Or.inr (by rw [h']; exact List.mem_cons_self _ _)
        · exact Or.inl h'
      · exact Or.inr (List.mem_cons_of_mem _ h)
    · rcases dedupFold_best_sub rest best unl e (heq ▸ he) with h | h
      · exact Or.inl h
      · exact Or.inr (List.mem_cons_of_mem _ h)

theorem dedupFold_id_inv :
    ∀ (s : List (FuzzyMatch × ℚ)) (best : List (Int × FuzzyMatch × ℚ)) (unl : List FuzzyMatch),
      (∀ e ∈ best, e.2.1.athlete_id = some e.1) →
      ∀ e ∈ (dedupFold best unl s).1, e.2.1.athlete_id = some e.1
  | [], best, unl, hb => by simpa [dedupFold] using hb
  | (m, d) :: rest, best, unl, hb => by
    rcases dedupFold_cons_cases best unl m d rest with ⟨hid, heq⟩ | ⟨i, hid, heq⟩ | ⟨i, hid, heq, _⟩
    · rw [heq]
      exact dedupFold_id_inv rest best (unl ++ [m]) hb
    · rw [heq]
      refine dedupFold_id_inv rest _ unl ?_
      intro e he
      rcases dictSet_mem i (m, d) best e he with h | h
      · rw [h]
        exact hid
      · exact hb e h
    · rw [heq]
      exact dedupFold_id_inv rest best unl hb

theorem dedupFold_keys_nodup :
    ∀ (s : List (FuzzyMatch × ℚ)) (best : List (Int × FuzzyMatch × ℚ)) (unl : List FuzzyMatch),
      (best.map Prod.fst).Nodup → ((dedupFold best unl s).1.map Prod.fst).Nodup
  | [], best, unl, hb => by simpa [dedupFold] using hb
  | (m, d) :: rest, best, unl, hb => by
    rcases dedupFold_cons_cases best unl m d rest with ⟨hid, heq⟩ | ⟨i, hid, heq⟩ | ⟨i, hid, heq, _⟩
    · rw [heq]
      exact dedupFold_keys_nodup rest best (unl ++ [m]) hb
    · rw [heq]
      exact dedupFold_keys_nodup rest _ unl (dictSet_keys_nodup i (m, d) best hb)
    · rw [heq]
      exact dedupFold_keys_nodup rest best unl hb

theorem dictSet_keys_toFinset (i : Int) (v : FuzzyMatch × ℚ) (m : List (Int × FuzzyMatch × ℚ)) :
    ((dictSet i v m).map Prod.fst).toFinset = insert i ((m.map Prod.fst).toFinset) := by
  rw [dictSet_map_fst]
  by_cases hm : i ∈ m.map Prod.fst
  · rw [if_pos hm]
    exact (Finset.insert_eq_self.mpr (List.mem_toFinset.mpr hm)).symm
  · rw [if_neg hm, List.toFinset_append]
    rw [Finset.union_comm]
    simp [Finset.union_comm, Finset.insert_eq]

theorem dedupFold_keys_finset :
    ∀ (s : List (FuzzyMatch × ℚ)) (best : List (Int × FuzzyMatch × ℚ)) (unl : List FuzzyMatch),
      ((dedupFold best unl s).1.map Prod.fst).toFinset =
        (best.map Prod.fst).toFinset ∪
          (s.filterMap (fun md => md.1.athlete_id)).toFinset
  | [], best, unl => by simp [dedupFold]
  | (m, d) :: rest, best, unl => by
    rcases dedupFold_cons_cases best unl m d rest with ⟨hid, heq⟩ | ⟨i, hid, heq⟩ | ⟨i, hid, heq, hne⟩
    · rw [heq, dedupFold_keys_finset rest]
      simp [List.filterMap_cons, hid]
    · rw [heq, dedupFold_keys_finset rest, dictSet_keys_toFinset]
      simp only [List.filterMap_cons, hid, List.toFinset_cons]
      rw [Finset.insert_union, Finset.union_insert]
    · rw [heq, dedupFold_keys_finset rest]
      simp only [List.filterMap_cons, hid, List.toFinset_cons]
      have hi : i ∈ (best.map Prod.fst).toFinset := by
        rw [List.mem_toFinset]
        by_contra hcon
        exact hne ((dictFind_none_iff i best).mpr hcon)
      rw [Finset.union_insert, Finset.insert_eq_self.mpr (Finset.mem_union_left _ hi)]

theorem dedupFold_find :
    ∀ (s : List (FuzzyMatch × ℚ)) (best : List (Int × FuzzyMatch × ℚ)) (unl : List FuzzyMatch)
      (i : Int),
      dictFind i (dedupFold best unl s).1 =
        selectRepAux (dictFind i best)
          (s.filter (fun md => decide (md.1.athlete_id = some i)))
  | [], best, unl, i => by
    rcases h : dictFind i best with _ | v <;> simp [dedupFold, selectRepAux, h]
  | (m, d) :: rest, best, unl, i => by
    rcases hid : m.athlete_id with _ | j
    · have heq : dedupFold best unl ((m, d) :: rest) = dedupFold best (unl ++ [m]) rest := by
        simp only [dedupFold, hid]
      rw [heq, dedupFold_find rest]
      simp [List.filter_cons, hid]
    · by_cases hij : j = i
      · subst hij
        have hfc : (((m, d) :: rest).filter (fun md => decide (md.1.athlete_id = some j))) =
            (m, d) :: (rest.filter (fun md => decide (md.1.athlete_id = some j))) := by
          simp [List.filter_cons, hid]
        rcases hf : dictFind j best with _ | ⟨em, ed⟩
        · have heq : dedupFold best unl ((m, d) :: rest) =
              dedupFold (dictSet j (m, d) best) unl rest := by
            simp only [dedupFold, hid, hf]
          rw [heq, dedupFold_find rest, dictFind_dictSet_self, hfc]
          rfl
        · by_cases hlt : em.similarity_score < m.similarity_score
          · have heq : dedupFold best unl ((m, d) :: rest) =
                dedupFold (dictSet j (m, d) best) unl rest := by
              simp only [dedupFold, hid, hf]
              simp [hlt]
            rw [heq, dedupFold_find rest, dictFind_dictSet_self, hfc]
            simp only [selectRepAux]
            rw [if_pos (Or.inl hlt)]
          · by_cases htie : m.similarity_score = em.similarity_score ∧ ed < d
            · have heq : dedupFold best unl ((m, d) :: rest) =
                  dedupFold (dictSet j (m, d) best) unl rest := by
                simp only [dedupFold, hid, hf]
                simp [hlt, htie]
              rw [heq, dedupFold_find rest, dictFind_dictSet_self, hfc]
              simp only [selectRepAux]
              rw [if_pos (Or.inr htie)]
            · have heq : dedupFold best unl ((m, d) :: rest) = dedupFold best unl rest := by
                simp only [dedupFold, hid, hf]
                simp [hlt, htie]
              rw [heq, dedupFold_find rest, hfc]
              simp only [selectRepAux]
              rw [if_neg (by
                rintro (h | h)
                · exact hlt h
                · exact htie h)]
              rw [hf]
      · have hfc : (((m, d) :: rest).filter (fun md => decide (md.1.athlete_id = some i))) =
            rest.filter (fun md => decide (md.1.athlete_id = some i)) := by
          simp [List.filter_cons, hid, hij]
        rcases dedupFold_cons_cases best unl m d rest with ⟨hid0, heq⟩ | ⟨j', hid', heq⟩ |
          ⟨j', hid', heq, _⟩
        · rw [hid0] at hid
          exact absurd hid (by simp)
        · have hj : j' = j := by
            rw [hid] at hid'
            exact (Option.some_inj.mp hid').symm
          subst hj
          rw [heq, dedupFold_find rest, dictFind_dictSet_ne j' i (fun h => hij h.symm), hfc]
        · rw [heq, dedupFold_find rest, hfc]

/-! ### Provenance of returned matches -/

theorem scoredList_mem (q : Str) (cands : List SearchCandidate) (thr : ℚ)
    (md : FuzzyMatch × ℚ) (h : md ∈ scoredList q cands thr) :
    ∃ c ∈ cands, thr ≤ scoreOf (lowerStr q) (lowerStr c.name) ∧
      md = (mkMatch c (scoreOf (lowerStr q) (lowerStr c.name)),
        ratio (lowerStr q) (lowerStr c.name)) := by
  simp only [scoredList, List.mem_filterMap] at h
  obtain ⟨c, hc, heq⟩ := h
  by_cases hthr : thr ≤ scoreOf (lowerStr q) (lowerStr c.name)
  · rw [if_pos hthr] at heq
    exact ⟨c, hc, hthr, (Option.some_inj.mp heq).symm⟩
  · rw [if_neg hthr] at heq
    exact absurd heq (by simp)

theorem dedupResults_mem (q : Str) (cands : List SearchCandidate) (thr : ℚ)
    (m : FuzzyMatch) (h : m ∈ dedupResults q cands thr) :
    ∃ d, (m, d) ∈ scoredList q cands thr := by
  simp only [dedupResults, List.mem_append] at h
  rcases h with h | h
  · obtain ⟨e, he, rfl⟩ := List.mem_map.mp h
    rcases dedupFold_best_sub _ _ _ e he with h' | h'
    · simp at h'
    · exact ⟨e.2.2, h'⟩
  · rw [dedupFold_unlinked] at h
    simp only [List.nil_append, List.mem_map] at h
    obtain ⟨md, hmd, rfl⟩ := h
    exact ⟨md.2, List.mem_of_mem_filter hmd⟩

theorem fuzzy_search_mem_dedup (q : Str) (cands : List SearchCandidate) (lim : Int)
    (thr : ℚ) (m : FuzzyMatch) (h : m ∈ fuzzy_search q cands lim thr) :
    m ∈ dedupResults q cands thr := by
  simp only [fuzzy_search, pyTake] at h
  have hsorted : m ∈ sortByScore (dedupResults q cands thr) := by
    rcases Decidable.em (0 ≤ lim) with h0 | h0
    · rw [if_pos h0] at h
      exact List.take_subset _ _ h
    · rw [if_neg h0] at h
      exact List.take_subset _ _ h
  have hperm := List.perm_insertionSort
    (fun a b => b.similarity_score ≤ a.similarity_score) (dedupResults q cands thr)
  exact hperm.mem_iff.mp hsorted

theorem fuzzy_search_mem_spec (q : Str) (cands : List SearchCandidate) (lim : Int)
    (thr : ℚ) (m : FuzzyMatch) (h : m ∈ fuzzy_search q cands lim thr) :
    ∃ c ∈ cands, thr ≤ scoreOf (lowerStr q) (lowerStr c.name) ∧
      m = mkMatch c (scoreOf (lowerStr q) (lowerStr c.name)) := by
  obtain ⟨d, hd⟩ := dedupResults_mem q cands thr m
    (fuzzy_search_mem_dedup q cands lim thr m h)
  obtain ⟨c, hc, hthr, heq⟩ := scoredList_mem q cands thr (m, d) hd
  exact ⟨c, hc, hthr, congrArg Prod.fst heq⟩

theorem pairwise_of_left {α : Type} {R : α → α → Prop} :
    ∀ (l : List α), (∀ x ∈ l, ∀ y, R x y) → l.Pairwise R
  | [], _ => List.Pairwise.nil
  | x :: xs, h => by
    refine List.Pairwise.cons (fun y _ => h x (by simp) y) ?_
    exact pairwise_of_left xs (fun z hz => h z (by simp [hz]))

theorem dedupResults_pairwise (q : Str) (cands : List SearchCandidate) (thr : ℚ) :
    (dedupResults q cands thr).Pairwise
      (fun m1 m2 => ∀ i : Int, m1.athlete_id = some i → m2.athlete_id ≠ some i) := by
  rw [dedupResults, List.pairwise_append]
  refine ⟨?_, ?_, ?_⟩
  · have hnd := dedupFold_keys_nodup (scoredList q cands thr) [] [] (by simp)
    have hinv := dedupFold_id_inv (scoredList q cands thr) [] [] (by simp)
    have hpw := List.pairwise_map.mp hnd
    rw [List.pairwise_map]
    refine hpw.imp_of_mem ?_
    intro a b ha hb hne i h1 h2
    apply hne
    rw [hinv a ha] at h1
    rw [hinv b hb] at h2
    rw [Option.some_inj.mp h1, Option.some_inj.mp h2]
  · refine pairwise_of_left _ ?_
    intro x hx y
    have : x.athlete_id = none := by
      rw [dedupFold_unlinked] at hx
      simp only [List.nil_append, List.mem_map] at hx
      obtain ⟨md, hmd, rfl⟩ := hx
      have := List.of_mem_filter hmd
      simpa [Option.isNone_iff_eq_none] using this
    intro i hi
    rw [this] at hi
    simp at hi
  · intro a _ b hb
    have hbnone : b.athlete_id = none := by
      rw [dedupFold_unlinked] at hb
      simp only [List.nil_append, List.mem_map] at hb
      obtain ⟨md, hmd, rfl⟩ := hb
      have := List.of_mem_filter hmd
      simpa [Option.isNone_iff_eq_none] using this
    intro i _
    rw [hbnone]
    simp

/-- C1: for every query, candidate list, limit and threshold, the result of
fuzzy_search never contains two Matches carrying the same non-null
athlete_id; matches with athlete_id none are exempt (the relation below is
vacuous for them) and are never deduplicated against one another. -/
theorem fuzzy_search_dedup_invariant (q : Str) (cands : List SearchCandidate)
    (lim : Int) (thr : ℚ) :
    (fuzzy_search q cands lim thr).Pairwise
      (fun m1 m2 => ∀ i : Int, m1.athlete_id = some i → m2.athlete_id ≠ some i) := by
  have hsorted : (sortByScore (dedupResults q cands thr)).Pairwise
      (fun m1 m2 => ∀ i : Int, m1.athlete_id = some i → m2.athlete_id ≠ some i) := by
    have hperm := List.perm_insertionSort
      (fun a b => b.similarity_score ≤ a.similarity_score) (dedupResults q cands thr)
    exact (hperm.pairwise_iff (fun hab i hbi hai => hab i hai hbi)).mpr
      (dedupResults_pairwise q cands thr)
  rw [fuzzy_search, pyTake]
  rcases Decidable.em (0 ≤ lim) with h0 | h0
  · rw [if_pos h0]
    exact hsorted.sublist (List.take_sublist _ _)
  · rw [if_neg h0]
    exact hsorted.sublist (List.take_sublist _ _)

/-- C2 (amended): within every group of threshold-surviving candidates sharing
the same non-null athlete_id, the representative Match returned by
fuzzy_search is the result of the explicit fold selectRep over that group in
first-seen order, whose total order compares the stored similarity_score (the
raw maximum of the three strategies rounded to one decimal place) first, then
the raw direct ratio, the incumbent (first seen) winning all remaining ties. -/
theorem dedup_selection_refines_fold (q : Str) (cands : List SearchCandidate)
    (lim : Int) (thr : ℚ) (i : Int) (m : FuzzyMatch)
    (hm : m ∈ fuzzy_search q cands lim thr) (hid : m.athlete_id = some i) :
    ∃ d : ℚ, selectRep ((scoredList q cands thr).filter
      (fun md => decide (md.1.athlete_id = some i))) = some (m, d) := by
  have hmem := fuzzy_search_mem_dedup q cands lim thr m hm
  rw [dedupResults] at hmem
  rcases List.mem_append.mp hmem with h | h
  · obtain ⟨e, he, hme⟩ := List.mem_map.mp h
    have hinv := dedupFold_id_inv (scoredList q cands thr) [] [] (by simp) e he
    have hnd := dedupFold_keys_nodup (scoredList q cands thr) [] [] (by simp)
    have hkey : e.1 = i := by
      rw [hme] at hinv
      rw [hid] at hinv
      exact (Option.some_inj.mp hinv).symm
    have hfind := dictFind_of_mem_nodup _ e hnd he
    have hfold := dedupFold_find (scoredList q cands thr) [] [] i
    rw [show dictFind i ([] : List (Int × FuzzyMatch × ℚ)) = none from rfl] at hfold
    refine ⟨e.2.2, ?_⟩
    rw [selectRep, ← hfold, ← hkey, hfind, ← hme]
  · rw [dedupFold_unlinked] at h
    simp only [List.nil_append, List.mem_map] at h
    obtain ⟨md, hmd, rfl⟩ := h
    have := List.of_mem_filter hmd
    rw [Option.isNone_iff_eq_none] at this
    rw [this] at hid
    exact absurd hid (by simp)

/-- C8: the result of fuzzy_search never exceeds the limit, and when the
number of deduplicated threshold survivors is at most the limit all of them
are returned (the result is a permutation of the deduplicated list). -/
theorem limit_bound (q : Str) (cands : List SearchCandidate) (lim : Int) (thr : ℚ) :
    (1 ≤ lim → ((fuzzy_search q cands lim thr).length : Int) ≤ lim) ∧
    (((dedupResults q cands thr).length : Int) ≤ lim →
      (fuzzy_search q cands lim thr).Perm (dedupResults q cands thr)) := by
  constructor
  · intro hlim
    have h0 : (0 : Int) ≤ lim := le_trans (by norm_num) hlim
    rw [fuzzy_search, pyTake, if_pos h0]
    calc ((List.take lim.toNat (sortByScore (dedupResults q cands thr))).length : Int)
        ≤ (lim.toNat : Int) := by
          exact_mod_cast List.length_take_le _ _
      _ = lim := Int.toNat_of_nonneg h0
  · intro hlen
    have h0 : (0 : Int) ≤ lim :=
      le_trans (by exact_mod_cast Int.ofNat_nonneg _) hlen
    have hslen : (sortByScore (dedupResults q cands thr)).length =
        (dedupResults q cands thr).length :=
      (List.perm_insertionSort _ _).length_eq
    rw [fuzzy_search, pyTake, if_pos h0]
    have htake : List.take lim.toNat (sortByScore (dedupResults q cands thr)) =
        sortByScore (dedupResults q cands thr) := by
      apply List.take_of_length_le
      rw [hslen]
      rw [Int.le_toNat h0]
      exact hlen
    rw [htake]
    exact List.perm_insertionSort _ _

/-! ### Threshold monotonicity -/

theorem scoredList_sublist (q : Str) (cands : List SearchCandidate) (t1 t2 : ℚ)
    (h : t1 ≤ t2) : List.Sublist (scoredList q cands t2) (scoredList q cands t1) := by
  induction cands with
  | nil => simp [scoredList]
  | cons c cs ih =>
    simp only [scoredList, List.filterMap_cons] at ih ⊢
    by_cases h2 : t2 ≤ scoreOf (lowerStr q) (lowerStr c.name)
    · rw [if_pos h2, if_pos (le_trans h h2)]
      exact ih.cons₂ _
    · rw [if_neg h2]
      by_cases h1 : t1 ≤ scoreOf (lowerStr q) (lowerStr c.name)
      · rw [if_pos h1]
        exact ih.cons _
      · rw [if_neg h1]
        exact ih

theorem dedupResults_length (q : Str) (cands : List SearchCandidate) (thr : ℚ) :
    (dedupResults q cands thr).length =
      ((scoredList q cands thr).filterMap (fun md => md.1.athlete_id)).toFinset.card +
        ((scoredList q cands thr).filter (fun md => md.1.athlete_id.isNone)).length := by
  rw [dedupResults]
  simp only [List.length_append, List.length_map]
  congr 1
  · have hnd := dedupFold_keys_nodup (scoredList q cands thr) [] [] (by simp)
    have hfin := dedupFold_keys_finset (scoredList q cands thr) [] []
    simp only [List.map_nil, List.toFinset_nil, Finset.empty_union] at hfin
    calc (dedupFold [] [] (scoredList q cands thr)).1.length
        = ((dedupFold [] [] (scoredList q cands thr)).1.map Prod.fst).length := by
          rw [List.length_map]
      _ = ((dedupFold [] [] (scoredList q cands thr)).1.map Prod.fst).toFinset.card := by
          rw [List.toFinset_card_of_nodup hnd]
      _ = _ := by rw [hfin]
  · rw [dedupFold_unlinked]
    simp

theorem pyTake_length_mono {α : Type} (n : Int) (l1 l2 : List α)
    (h : l1.length ≤ l2.length) : (pyTake n l1).length ≤ (pyTake n l2).length := by
  rw [pyTake, pyTake]
  rcases Decidable.em (0 ≤ n) with h0 | h0
  · rw [if_pos h0, if_pos h0]
    simp only [List.length_take]
    omega
  · rw [if_neg h0, if_neg h0]
    simp only [List.length_take]
    omega

/-- C7: for a fixed query, candidate list and limit, raising the threshold
never increases the number of results returned by fuzzy_search. -/
theorem threshold_monotone (q : Str) (cands : List SearchCandidate) (lim : Int)
    (t1 t2 : ℚ) (h : t1 ≤ t2) :
    (fuzzy_search q cands lim t2).length ≤ (fuzzy_search q cands lim t1).length := by
  have hsub := scoredList_sublist q cands t1 t2 h
  have hlen : (dedupResults q cands t2).length ≤ (dedupResults q cands t1).length := by
    rw [dedupResults_length, dedupResults_length]
    have hcard : ((scoredList q cands t2).filterMap (fun md => md.1.athlete_id)).toFinset.card ≤
        ((scoredList q cands t1).filterMap (fun md => md.1.athlete_id)).toFinset.card := by
      apply Finset.card_le_card
      intro x hx
      rw [List.mem_toFinset] at hx ⊢
      exact (hsub.filterMap _).subset hx
    have hfil : ((scoredList q cands t2).filter (fun md => md.1.athlete_id.isNone)).length ≤
        ((scoredList q cands t1).filter (fun md => md.1.athlete_id.isNone)).length :=
      (hsub.filter _).length_le
    omega
  have hslen1 : (sortByScore (dedupResults q cands t1)).length =
      (dedupResults q cands t1).length := (List.perm_insertionSort _ _).length_eq
  have hslen2 : (sortByScore (dedupResults q cands t2)).length =
      (dedupResults q cands t2).length := (List.perm_insertionSort _ _).length_eq
  rw [fuzzy_search, fuzzy_search]
  apply pyTake_length_mono
  rw [hslen1, hslen2]
  exact hlen

/-! ### Exact match -/

/-- C5: searching any non-empty string s over the candidates built from the
single primary entity whose display name is s (no aliases, no secondary
records) returns exactly one Match, with similarity_score exactly 100. -/
theorem exact_match_property (s : Str) (_hs : s ≠ []) (id cnt : Int) (lim : Int)
    (thr : ℚ) (hlim : 1 ≤ lim) (hthr : thr ≤ 100) :
    fuzzy_search s (build_search_candidates [⟨id, s, none, cnt⟩] none) lim thr =
      [⟨some id, s, 100, s, "db", cnt⟩] := by
  have hbuild : build_search_candidates [⟨id, s, none, cnt⟩] none =
      [⟨s, some id, s, "db", cnt⟩] := by
    simp [build_search_candidates, dbCandidates]
  have hscore : scoreOf (lowerStr s) (lowerStr s) = 100 := scoreOf_self _
  have hscored : scoredList s [⟨s, some id, s, "db", cnt⟩] thr =
      [(⟨some id, s, 100, s, "db", cnt⟩, ratio (lowerStr s) (lowerStr s))] := by
    simp only [scoredList, List.filterMap]
    rw [hscore, if_pos hthr]
    simp [mkMatch, hscore, round1_100]
  have hdedup : dedupResults s [⟨s, some id, s, "db", cnt⟩] thr =
      [⟨some id, s, 100, s, "db", cnt⟩] := by
    rw [dedupResults, hscored]
    simp [dedupFold, dictFind, dictSet]
  rw [fuzzy_search, hbuild, hdedup]
  have hsort : sortByScore [(⟨some id, s, 100, s, "db", cnt⟩ : FuzzyMatch)] =
      [⟨some id, s, 100, s, "db", cnt⟩] := by
    simp [sortByScore, List.insertionSort]
  rw [hsort, pyTake, if_pos (le_trans (by norm_num) hlim)]
  have h1 : 1 ≤ lim.toNat := by omega
  rcases Nat.exists_eq_add_of_le h1 with ⟨k, hk⟩
  rw [hk]
  simp

/-! ### Alias transparency -/

set_option maxRecDepth 1000000

/-- C6: every returned Match copies its winning candidate's athlete_id,
display_name (for an alias-derived candidate this is the entity's primary
display name, never the alias text), matched_on (the text that actually
scored) and source; alias-derived candidates carry the entity's id and
primary display name; and concretely, searching "Kate Feicht" against the
entity display_name "Kate" with alias "Kate Feicht" returns the single Match
with display_name "Kate" and matched_on "Kate Feicht". -/
theorem alias_transparency :
    (∀ (q : Str) (cands : List SearchCandidate) (lim : Int) (thr : ℚ)
        (m : FuzzyMatch), m ∈ fuzzy_search q cands lim thr →
      ∃ c ∈ cands, m.athlete_id = c.athlete_id ∧ m.display_name = c.display_name ∧
        m.matched_on = c.name ∧ m.source = c.source) ∧
    (∀ (db : List DbAthlete) (a : DbAthlete), a ∈ db →
      ∀ al ∈ a.aliases.getD [],
      (⟨al, some a.id, a.display_name, "db", a.appearance_count⟩ : SearchCandidate)
        ∈ dbCandidates db) ∧
    fuzzy_search ("Kate Feicht".toList)
        (build_search_candidates [⟨1, "Kate".toList, some ["Kate Feicht".toList], 3⟩]
          none) 10 45 =
      [⟨some 1, "Kate".toList, 100, "Kate Feicht".toList, "db", 3⟩] := by
  refine ⟨?_, ?_, ?_⟩
  · intro q cands lim thr m h
    obtain ⟨c, hc, _, heq⟩ := fuzzy_search_mem_spec q cands lim thr m h
    subst heq
    exact ⟨c, hc, rfl, rfl, rfl, rfl⟩
  · intro db a ha al hal
    simp only [dbCandidates, List.mem_flatMap]
    exact ⟨a, ha, List.mem_cons_of_mem _ (List.mem_map_of_mem _ hal)⟩
  · decide

/-! ### Argument validation -/

/-- C4 counterexample: fuzzy_search performs no argument validation at all.
With a single exact-match candidate, limit = 0 silently yields [], limit = -1
silently drops the tail via Python slicing, threshold = 150 silently filters
everything out, and threshold = -5 silently proceeds and returns the match:
no call fails fast. -/
theorem no_validation_counterexample :
    fuzzy_search ("Esme".toList)
        [⟨"Esme".toList, some 1, "Esme".toList, "db", 2⟩] 0 45 = [] ∧
    fuzzy_search ("Esme".toList)
        [⟨"Esme".toList, some 1, "Esme".toList, "db", 2⟩] (-1) 45 = [] ∧
    fuzzy_search ("Esme".toList)
        [⟨"Esme".toList, some 1, "Esme".toList, "db", 2⟩] 10 150 = [] ∧
    fuzzy_search ("Esme".toList)
        [⟨"Esme".toList, some 1, "Esme".toList, "db", 2⟩] 10 (mkRat (-5) 1) =
      [⟨some 1, "Esme".toList, 100, "Esme".toList, "db", 2⟩] := by
  refine ⟨by decide, by decide, ?_, by decide⟩
  have h : scoredList ("Esme".toList)
      [⟨"Esme".toList, some 1, "Esme".toList, "db", 2⟩] 150 = [] := by
    simp only [scoredList, List.filterMap]
    rw [if_neg]
    intro hle
    exact absurd (le_trans hle (scoreOf_le_100 _ _)) (by norm_num)
  simp [fuzzy_search, dedupResults, h, dedupFold, sortByScore, List.insertionSort, pyTake]

/-- C4 (amended): fuzzy_search never raises on out-of-range arguments; it
silently proceeds.  In particular limit = 0 always returns the empty list,
and any threshold above 100 always returns the empty list (every score is at
most 100).  Validation of limit and threshold lives in the API layer
(athletes.py Query bounds), not in fuzzy_search. -/
theorem no_validation :
    (∀ (q : Str) (cands : List SearchCandidate) (thr : ℚ),
      fuzzy_search q cands 0 thr = []) ∧
    (∀ (q : Str) (cands : List SearchCandidate) (lim : Int) (thr : ℚ),
      100 < thr → fuzzy_search q cands lim thr = []) := by
  constructor
  · intro q cands thr
    simp [fuzzy_search, pyTake]
  · intro q cands lim thr hthr
    have h : scoredList q cands thr = [] := by
      simp only [scoredList, List.filterMap_eq_nil_iff]
      intro c _
      rw [if_neg]
      intro hle
      exact absurd (lt_of_lt_of_le hthr hle) (not_lt.mpr (scoreOf_le_100 _ _))
    simp [fuzzy_search, dedupResults, h, dedupFold, sortByScore, List.insertionSort,
      pyTake]

/-! ### Rounding semantics -/

/-- C10: every returned Match stores the raw maximum-of-strategies score
rounded to one decimal (while the threshold test uses the unrounded score);
two candidates whose raw scores differ by less than 0.05 round to the same
stored value, so the per-id dedup comparison falls through to the
direct-similarity tie-break (the lower-raw candidate can win); a threshold
strictly between the rounded and raw score still admits the match; and the
final descending sort compares the rounded values, keeping first-seen order
for matches whose raw scores differ but round alike. -/
theorem rounding_semantics :
    (∀ (q : Str) (cands : List SearchCandidate) (lim : Int) (thr : ℚ)
        (m : FuzzyMatch), m ∈ fuzzy_search q cands lim thr →
      ∃ c ∈ cands,
        m.similarity_score = round1 (scoreOf (lowerStr q) (lowerStr c.name)) ∧
        thr ≤ scoreOf (lowerStr q) (lowerStr c.name)) ∧
    (scoreOf (lowerStr ("abcdefghijklmnop qrstuvwx12345678".toList))
        (lowerStr ("qrstuvwx12345678 abcdefghijklmnopz".toList)) = mkRat 6600 67 ∧
      scoreOf (lowerStr ("abcdefghijklmnop qrstuvwx12345678".toList))
        (lowerStr ("abcdefghijklmnopqrstuvwx12345678".toList)) = mkRat 1280 13 ∧
      mkRat 1280 13 < mkRat 6600 67 ∧
      mkRat 6600 67 < mkRat 1280 13 + mkRat 1 20 ∧
      round1 (mkRat 6600 67) = mkRat 197 2 ∧
      round1 (mkRat 1280 13) = mkRat 197 2 ∧
      fuzzy_search ("abcdefghijklmnop qrstuvwx12345678".toList)
        [⟨"qrstuvwx12345678 abcdefghijklmnopz".toList, some 3,
            "qrstuvwx12345678 abcdefghijklmnopz".toList, "db", 0⟩,
          ⟨"abcdefghijklmnopqrstuvwx12345678".toList, some 3,
            "abcdefghijklmnopqrstuvwx12345678".toList, "db", 0⟩] 10 45 =
        [⟨some 3, "abcdefghijklmnopqrstuvwx12345678".toList, mkRat 197 2,
          "abcdefghijklmnopqrstuvwx12345678".toList, "db", 0⟩]) ∧
    (scoreOf (lowerStr ("alpha beta lambda".toList))
        (lowerStr ("alpha beta lambxa".toList)) = mkRat 1600 17 ∧
      round1 (mkRat 1600 17) = mkRat 941 10 ∧
      mkRat 941 10 < mkRat 9411 100 ∧
      mkRat 9411 100 ≤ mkRat 1600 17 ∧
      fuzzy_search ("alpha beta lambda".toList)
        [⟨"alpha beta lambxa".toList, some 5, "alpha beta lambxa".toList, "db", 2⟩]
        10 (mkRat 9411 100) =
        [⟨some 5, "alpha beta lambxa".toList, mkRat 941 10,
          "alpha beta lambxa".toList, "db", 2⟩]) ∧
    (scoreOf (lowerStr ("abcdefghijk mnopqrstuvwxy".toList))
          (lowerStr ("abcdefghijkmnopqrstuvwxy".toList)) <
        scoreOf (lowerStr ("abcdefghijk mnopqrstuvwxy".toList))
          (lowerStr ("mnopqrstuvwxy abcdefghijkz".toList)) ∧
      fuzzy_search ("abcdefghijk mnopqrstuvwxy".toList)
        [⟨"abcdefghijkmnopqrstuvwxy".toList, some 1,
            "abcdefghijkmnopqrstuvwxy".toList, "db", 0⟩,
          ⟨"mnopqrstuvwxy abcdefghijkz".toList, some 2,
            "mnopqrstuvwxy abcdefghijkz".toList, "db", 0⟩] 10 45 =
        [⟨some 1, "abcdefghijkmnopqrstuvwxy".toList, 98,
            "abcdefghijkmnopqrstuvwxy".toList, "db", 0⟩,
          ⟨some 2, "mnopqrstuvwxy abcdefghijkz".toList, 98,
            "mnopqrstuvwxy abcdefghijkz".toList, "db", 0⟩]) := by
  refine ⟨?_, ⟨by decide, by decide, by decide, ?_, by decide, by decide, by decide⟩,
    ⟨by decide, by decide, by decide, by decide, by decide⟩, by decide, by decide⟩
  · intro q cands lim thr m h
    obtain ⟨c, hc, hthr, heq⟩ := fuzzy_search_mem_spec q cands lim thr m h
    subst heq
    exact ⟨c, hc, rfl, hthr⟩
  · rw [Rat.mkRat_eq_divInt, Rat.mkRat_eq_divInt, Rat.mkRat_eq_divInt,
      Rat.divInt_eq_div, Rat.divInt_eq_div, Rat.divInt_eq_div]
    norm_num

/-- C2 counterexample: two candidates share athlete_id 7; the first has the
strictly higher raw scorer output, yet the second is selected as the group
representative, because the code compares the round-to-one-decimal stored
scores (equal here, both 98.0) and then direct similarity, not the raw
maximum-of-strategies score. -/
theorem dedup_raw_score_counterexample :
    scoreOf (lowerStr ("abcdefghijkl mnopqrstuvwx".toList))
        (lowerStr ("abcdefghijklmnopqrstuvwx".toList)) <
      scoreOf (lowerStr ("abcdefghijkl mnopqrstuvwx".toList))
        (lowerStr ("mnopqrstuvwx abcdefghijklz".toList)) ∧
    fuzzy_search ("abcdefghijkl mnopqrstuvwx".toList)
        [⟨"mnopqrstuvwx abcdefghijklz".toList, some 7,
            "mnopqrstuvwx abcdefghijklz".toList, "db", 0⟩,
          ⟨"abcdefghijklmnopqrstuvwx".toList, some 7,
            "abcdefghijklmnopqrstuvwx".toList, "db", 0⟩] 10 45 =
      [⟨some 7, "abcdefghijklmnopqrstuvwx".toList, 98,
        "abcdefghijklmnopqrstuvwx".toList, "db", 0⟩] := by
  exact ⟨by decide, by decide⟩

/-! ### Concrete instances of the hypothesized theorems -/

theorem exact_match_witness :
    fuzzy_search ("Esme".toList)
        (build_search_candidates [⟨1, "Esme".toList, none, 2⟩] none) 10 45 =
      [⟨some 1, "Esme".toList, 100, "Esme".toList, "db", 2⟩] :=
  exact_match_property ("Esme".toList) (by decide) 1 2 10 45 (by decide) (by decide)

theorem secondary_dedup_skip_witness :
    build_search_candidates [⟨1, "Esme".toList, none, 2⟩]
        (some ([] ++ ⟨"Esme Newton-Pawlus".toList, some 1⟩ :: [])) =
      build_search_candidates [⟨1, "Esme".toList, none, 2⟩] (some ([] ++ [])) ∧
    ∀ c ∈ build_search_candidates [⟨1, "Esme".toList, none, 2⟩]
        (some ([] ++ ⟨"Esme Newton-Pawlus".toList, some 1⟩ :: [])),
      c.athlete_id = some 1 → c.source = "db" :=
  secondary_dedup_skip [⟨1, "Esme".toList, none, 2⟩] [] []
    ⟨"Esme Newton-Pawlus".toList, some 1⟩ 1 rfl (by decide) (by decide)

theorem dedup_selection_refines_fold_witness :
    ∃ d : ℚ, selectRep ((scoredList ("Esme".toList)
        [⟨"Esme".toList, some 1, "Esme".toList, "db", 2⟩] 45).filter
      (fun md => decide (md.1.athlete_id = some 1))) =
      some (⟨some 1, "Esme".toList, 100, "Esme".toList, "db", 2⟩, d) :=
  dedup_selection_refines_fold ("Esme".toList)
    [⟨"Esme".toList, some 1, "Esme".toList, "db", 2⟩] 10 45 1
    ⟨some 1, "Esme".toList, 100, "Esme".toList, "db", 2⟩ (by decide) rfl

theorem threshold_monotone_witness :
    (fuzzy_search ("Esme".toList)
        [⟨"Esme".toList, some 1, "Esme".toList, "db", 2⟩] 10 60).length ≤
      (fuzzy_search ("Esme".toList)
        [⟨"Esme".toList, some 1, "Esme".toList, "db", 2⟩] 10 45).length :=
  threshold_monotone ("Esme".toList)
    [⟨"Esme".toList, some 1, "Esme".toList, "db", 2⟩] 10 45 60 (by decide)
